import Mathlib

/-!
Verification of the wagon load balancing notebook
(`wagon_load_balancing.ipynb`).

The notebook builds a mixed-integer linear program with Pyomo:

* sets `B` (boxes, from the Boxes sheet index) and `N` (wagons, from the
  Wagons sheet index), weights `wb` (the Weight column);
* `model.x = pyo.Var(B, N, domain=pyo.Binary)`;
* `model.W = pyo.Var(domain=pyo.NonNegativeReals)`;
* `model.objective = pyo.Objective(expr=model.W, sense=pyo.minimize)`;
* `constraint1`: for each `b in B`, `sum(model.x[b,n] for n in N) == 1`;
* `constraint2`: for each `n in N`, `sum(wb[b]*model.x[b,n] for b in B) <= model.W`;

then calls GLPK, prints every pair `(b, n)` with `pyo.value(model.x[b,n]) != 0`
and prints `pyo.value(model.objective)`.

We shallowly embed the model as an explicit linear program over a small
variable/expression syntax, give it the standard semantics over `ℚ`, and embed
the post-solve decoding loop as a pure function of the variable valuation.
-/

/-- Decision variables of the notebook model: `x b n` is Pyomo's `model.x[b,n]`
and `W` is `model.W`. -/
inductive Var where
  | x (b n : Nat)
  | W
deriving DecidableEq

/-- Pyomo variable domains used by the notebook: `pyo.Binary` for `model.x`
and `pyo.NonNegativeReals` for `model.W`. -/
inductive Domain where
  | Binary
  | NonNegativeReals
deriving DecidableEq

/-- Objective sense; the notebook uses `pyo.minimize`. -/
inductive Sense where
  | minimize
  | maximize
deriving DecidableEq

/-- Relation of a linear constraint: `==` or `<=`, the two forms appearing in
the notebook's `ConstraintList.add` calls. -/
inductive CRel where
  | eqRel
  | leRel
deriving DecidableEq

/-- A linear expression: a list of (coefficient, variable) terms plus a
constant. -/
structure LinExpr where
  terms : List (ℚ × Var)
  const : ℚ
deriving DecidableEq

/-- A linear constraint `lhs rel rhs`. -/
structure Constraint where
  lhs : LinExpr
  rel : CRel
  rhs : LinExpr
deriving DecidableEq

/-- The model object constructed by the notebook cell: the declared variables
with their domains, the objective expression with its sense, and the two
constraint lists `model.constraint1` and `model.constraint2`.  These are the
only constraint lists the cell adds to the model. -/
structure Model where
  vars : List (Var × Domain)
  objective : LinExpr
  sense : Sense
  constraint1 : List Constraint
  constraint2 : List Constraint
deriving DecidableEq

/-- Embedding of the notebook's model-construction cell.  `B` and `N` are the
box and wagon identifier lists and `wb` the box-weight table.  It declares one
binary variable `x b n` per `(b, n)` pair and the scalar `W`, minimizes `W`,
adds `sum(x[b,n] for n in N) == 1` for each box and
`sum(wb[b]*x[b,n] for b in B) <= W` for each wagon. -/
def buildModel (B N : List Nat) (wb : Nat → ℚ) : Model where
  vars := (B.flatMap fun b => N.map fun n => (Var.x b n, Domain.Binary))
      ++ [(Var.W, Domain.NonNegativeReals)]
  objective := ⟨[((1 : ℚ), Var.W)], 0⟩
  sense := Sense.minimize
  constraint1 := B.map fun b =>
    ⟨⟨N.map fun n => ((1 : ℚ), Var.x b n), 0⟩, CRel.eqRel, ⟨[], 1⟩⟩
  constraint2 := N.map fun n =>
    ⟨⟨B.map fun b => (wb b, Var.x b n), 0⟩, CRel.leRel, ⟨[((1 : ℚ), Var.W)], 0⟩⟩

/-- Value of a linear expression under a valuation of the variables. -/
def evalLin (v : Var → ℚ) (e : LinExpr) : ℚ :=
  (e.terms.map fun t => t.1 * v t.2).sum + e.const

/-- A valuation satisfies a linear constraint. -/
def satisfies (v : Var → ℚ) (c : Constraint) : Prop :=
  match c.rel with
  | CRel.eqRel => evalLin v c.lhs = evalLin v c.rhs
  | CRel.leRel => evalLin v c.lhs ≤ evalLin v c.rhs

instance satisfiesDecidable (v : Var → ℚ) (c : Constraint) :
    Decidable (satisfies v c) :=
  match c with
  | ⟨lhs, CRel.eqRel, rhs⟩ => inferInstanceAs (Decidable (evalLin v lhs = evalLin v rhs))
  | ⟨lhs, CRel.leRel, rhs⟩ => inferInstanceAs (Decidable (evalLin v lhs ≤ evalLin v rhs))

/-- A valuation respects a declared variable domain. -/
def inDomain (v : Var → ℚ) (vd : Var × Domain) : Prop :=
  match vd.2 with
  | Domain.Binary => v vd.1 = 0 ∨ v vd.1 = 1
  | Domain.NonNegativeReals => 0 ≤ v vd.1

instance inDomainDecidable (v : Var → ℚ) (vd : Var × Domain) :
    Decidable (inDomain v vd) :=
  match vd with
  | (w, Domain.Binary) => inferInstanceAs (Decidable (v w = 0 ∨ v w = 1))
  | (w, Domain.NonNegativeReals) => inferInstanceAs (Decidable (0 ≤ v w))

/-- Feasibility of a valuation for a model: every declared variable lies in
its domain and every constraint of both constraint lists holds. -/
def Feasible (m : Model) (v : Var → ℚ) : Prop :=
  (∀ vd ∈ m.vars, inDomain v vd)
    ∧ (∀ c ∈ m.constraint1, satisfies v c)
    ∧ (∀ c ∈ m.constraint2, satisfies v c)

instance feasibleDecidable (m : Model) (v : Var → ℚ) : Decidable (Feasible m v) :=
  inferInstanceAs (Decidable ((∀ vd ∈ m.vars, inDomain v vd)
    ∧ (∀ c ∈ m.constraint1, satisfies v c)
    ∧ (∀ c ∈ m.constraint2, satisfies v c)))

/-- Objective value of a valuation. -/
def evalObj (m : Model) (v : Var → ℚ) : ℚ :=
  evalLin v m.objective

/-- A valuation is an optimal solution of the (minimizing) model: it is
feasible and its objective value is a lower bound on the objective value of
every feasible valuation.  This is the contract of a solver run that
terminates with status `optimal`. -/
def IsOptimal (m : Model) (v : Var → ℚ) : Prop :=
  Feasible m v ∧ ∀ u : Var → ℚ, Feasible m u → evalObj m v ≤ evalObj m u

/-- The load of wagon `n`: the left-hand side of its `constraint2` row,
`sum(wb[b]*x[b,n] for b in B)`. -/
def loadL (wb : Nat → ℚ) (B : List Nat) (v : Var → ℚ) (n : Nat) : ℚ :=
  (B.map fun b => wb b * v (Var.x b n)).sum

/-- The load of wagon `n` computed from the decoded assignment: the sum of the
weights of the boxes whose indicator for `n` is non-zero (the decode loop's
criterion `pyo.value(model.x[b,n]) != 0`). -/
def wagonLoad (wb : Nat → ℚ) (B : List Nat) (v : Var → ℚ) (n : Nat) : ℚ :=
  ((B.filter fun b => decide (v (Var.x b n) ≠ 0)).map wb).sum

/-- Maximum wagon load over all wagons (with `0` as the value for an empty
wagon list, matching the lower bound `W ≥ 0` from `W`'s domain). -/
def maxLoad (wb : Nat → ℚ) (B N : List Nat) (v : Var → ℚ) : ℚ :=
  (N.map (wagonLoad wb B v)).foldr max 0

/-- Embedding of the notebook's decoding loop

```
for n in N:
    for b in B:
        if pyo.value(model.x[b,n]) != 0:
            print(f"Box: \x7bb\x7d is assigend to wagon: \x7bn\x7d")
```

as the list of printed `(box, wagon)` pairs, in print order. -/
def notebookDecode (B N : List Nat) (v : Var → ℚ) : List (Nat × Nat) :=
  N.flatMap fun n => (B.filter fun b => decide (v (Var.x b n) ≠ 0)).map fun b => (b, n)

/-- Termination statuses a solver run can report (the notebook's GLPK run
reports `optimal`). -/
inductive TermStatus where
  | optimal
  | infeasible
  | unbounded
  | solverError
  | timeLimit
deriving DecidableEq

/-- The record returned by `solver.solve(model)` as the post-solve cells see
it: a termination status together with the realized value of every variable
(read back through `pyo.value`). -/
structure SolverResults where
  termination : TermStatus
  val : Var → ℚ

/-- Embedding of everything the notebook does after `solver.solve`: the decode
loop over `model.x` and the final `pyo.value(model.objective)` report.  Note
that the notebook code runs both unconditionally on the result record; it
never inspects `termination`. -/
def notebookReport (B N : List Nat) (wb : Nat → ℚ) (r : SolverResults) :
    List (Nat × Nat) × ℚ :=
  (notebookDecode B N r.val, evalLin r.val (buildModel B N wb).objective)

/-- The model-construction cell viewed as a fallible computation, so that the
spec's claimed `ConfigurationError` outcome is expressible: the cell contains
no validation of weights, emptiness or identifier collisions and no error
branch at all, so it always returns the built model. -/
def buildModelE (B N : List Nat) (wb : Nat → ℚ) : Except String Model :=
  Except.ok (buildModel B N wb)

/-- Box identifiers of the notebook instance (the Boxes sheet index). -/
def B16 : List Nat := [1, 2, 3, 4, 5, 6, 7, 8, 9, 10, 11, 12, 13, 14, 15, 16]

/-- Wagon identifiers of the notebook instance (the Wagons sheet index). -/
def N3 : List Nat := [1, 2, 3]

/-- Box weights of the notebook instance (the Weight column of the Boxes
sheet): boxes 1..16 weigh 34, 6, 8, 17, 16, 5, 13, 21, 25, 31, 14, 13, 33, 9,
25, 25 quintals. -/
def wb16 : Nat → ℚ := fun b =>
  match b with
  | 1 => 34
  | 2 => 6
  | 3 => 8
  | 4 => 17
  | 5 => 16
  | 6 => 5
  | 7 => 13
  | 8 => 21
  | 9 => 25
  | 10 => 31
  | 11 => 14
  | 12 => 13
  | 13 => 33
  | 14 => 9
  | 15 => 25
  | 16 => 25
  | _ => 0

/-- A row of the Wagons sheet: a wagon identifier and its stated capacity.
The notebook loads the Capacity column but only ever uses the index. -/
structure WagonRow where
  wagon : Nat
  capacity : ℚ
deriving DecidableEq

/-- The Wagons sheet of the notebook instance: three wagons of capacity 100. -/
def wagonsData : List WagonRow := [⟨1, 100⟩, ⟨2, 100⟩, ⟨3, 100⟩]

/-- Model construction from the loaded wagons table: the notebook sets
`N = wagons.index` and never reads the Capacity column again. -/
def buildFromTables (wb : Nat → ℚ) (B : List Nat) (wagons : List WagonRow) : Model :=
  buildModel B (wagons.map WagonRow.wagon) wb

/-- The assignment printed by the notebook's decode cell: wagon 1 gets boxes
1, 2, 13, 15; wagon 2 gets boxes 5, 6, 7, 9, 10, 14; wagon 3 gets boxes
3, 4, 8, 11, 12, 16. -/
def assignStar : Nat → Nat := fun b =>
  if b = 1 ∨ b = 2 ∨ b = 13 ∨ b = 15 then 1
  else if b = 5 ∨ b = 6 ∨ b = 7 ∨ b = 9 ∨ b = 10 ∨ b = 14 then 2
  else 3

/-- The optimal valuation reported by the notebook's GLPK run: the printed
assignment together with objective value `W = 99`. -/
def nuStar : Var → ℚ := fun v =>
  match v with
  | Var.x b n => if assignStar b = n then 1 else 0
  | Var.W => 99

/-- Canonical solution of the one-box one-wagon instance with box weight `c`:
the box goes to the only wagon and `W = c`. -/
def nuOne (c : ℚ) : Var → ℚ := fun v =>
  match v with
  | Var.x _ _ => 1
  | Var.W => c

/-- A variable record in which every indicator is non-zero (used to exercise
the decode loop on an inconsistent record). -/
def valAllOne : Var → ℚ := fun v =>
  match v with
  | Var.x _ _ => 1
  | Var.W => 0

/-- A variable record in which every variable is zero. -/
def valAllZero : Var → ℚ := fun _ => 0

/-- A non-optimal solver result (status `infeasible`) whose variable record
has every indicator non-zero. -/
def recA : SolverResults := ⟨TermStatus.infeasible, valAllOne⟩

/-- A non-optimal solver result (status `infeasible`) whose variable record is
all zero. -/
def recB : SolverResults := ⟨TermStatus.infeasible, valAllZero⟩

/-- A weight table with a negative weight for every box. -/
def negWeight : Nat → ℚ := fun _ => -1

/-- Constant weight table assigning weight 1 to every box. -/
def wOne : Nat → ℚ := fun _ => 1

/-- Weight table agreeing with `wOne` except that box 1 weighs 2. -/
def wTwo : Nat → ℚ := fun b => if b = 1 then 2 else 1

/-- Two versions of the Wagons sheet over the same identifiers 1, 2, 3 but
with different capacity columns. -/
def wagonsAlt : List WagonRow := [⟨1, 7⟩, ⟨2, 350⟩, ⟨3, 0⟩]

/-- The objective of the built model evaluates to the value of `W`. -/
theorem evalObj_buildModel (B N : List Nat) (wb : Nat → ℚ) (v : Var → ℚ) :
    evalObj (buildModel B N wb) v = v Var.W := by
  simp [evalObj, evalLin, buildModel]

/-- Unfolding of feasibility for the built model: binary indicators, a
non-negative `W`, one indicator-sum equation per box and one load bound per
wagon — and nothing else. -/
theorem feasible_iff (B N : List Nat) (wb : Nat → ℚ) (v : Var → ℚ) :
    Feasible (buildModel B N wb) v ↔
      ((∀ b ∈ B, ∀ n ∈ N, v (Var.x b n) = 0 ∨ v (Var.x b n) = 1)
        ∧ 0 ≤ v Var.W
        ∧ (∀ b ∈ B, (N.map fun n => v (Var.x b n)).sum = 1)
        ∧ (∀ n ∈ N, loadL wb B v n ≤ v Var.W)) := by
  constructor
  · rintro ⟨hdom, hc1, hc2⟩
    refine ⟨?_, ?_, ?_, ?_⟩
    · intro b hb n hn
      exact hdom (Var.x b n, Domain.Binary)
        (List.mem_append_left _ (List.mem_flatMap.2 ⟨b, hb, List.mem_map_of_mem _ hn⟩))
    · exact hdom (Var.W, Domain.NonNegativeReals) (List.mem_append_right _ (by simp))
    · intro b hb
      have h := hc1 _ (List.mem_map_of_mem _ hb)
      simpa [satisfies, evalLin, List.map_map, Function.comp_def] using h
    · intro n hn
      have h := hc2 _ (List.mem_map_of_mem _ hn)
      simpa [satisfies, evalLin, loadL, List.map_map, Function.comp_def] using h
  · rintro ⟨hbin, hW, hsum, hload⟩
    refine ⟨?_, ?_, ?_⟩
    · intro vd hvd
      rcases List.mem_append.1 hvd with h | h
      · obtain ⟨b, hb, h2⟩ := List.mem_flatMap.1 h
        obtain ⟨n, hn, rfl⟩ := List.mem_map.1 h2
        exact hbin b hb n hn
      · simp only [List.mem_singleton] at h
        subst h
        exact hW
    · intro c hc
      obtain ⟨b, hb, rfl⟩ := List.mem_map.1 hc
      have h := hsum b hb
      simp only [satisfies, evalLin, List.map_map, Function.comp_def]
      simpa using h
    · intro c hc
      obtain ⟨n, hn, rfl⟩ := List.mem_map.1 hc
      have h := hload n hn
      simp only [satisfies, evalLin, List.map_map, Function.comp_def]
      simpa [loadL] using h

/-- The assignment printed by the notebook, together with `W = 99`, is a
feasible solution of the notebook instance. -/
theorem nuStar_feasible : Feasible (buildModel B16 N3 wb16) nuStar := by
  constructor
  · norm_num [buildModel, B16, N3, inDomain, nuStar, assignStar]
  constructor
  · norm_num [buildModel, B16, N3, satisfies, evalLin, nuStar, assignStar]
  · norm_num [buildModel, B16, N3, wb16, satisfies, evalLin, nuStar, assignStar]

/-- The fold used for the maximum load is non-negative. -/
theorem foldr_max_nonneg (l : List ℚ) : 0 ≤ l.foldr max 0 := by
  induction l with
  | nil => simp
  | cons a l ih => exact le_max_of_le_right ih

/-- Every element is bounded by the maximum-load fold. -/
theorem le_foldr_max (l : List ℚ) (a : ℚ) (h : a ∈ l) : a ≤ l.foldr max 0 := by
  induction l with
  | nil => cases h
  | cons b l ih =>
    rcases List.mem_cons.1 h with rfl | h2
    · exact le_max_left _ _
    · exact le_trans (ih h2) (le_max_right _ _)

/-- The maximum-load fold is bounded by any non-negative upper bound of the
elements. -/
theorem foldr_max_le (l : List ℚ) (q : ℚ) (h0 : 0 ≤ q) (h : ∀ a ∈ l, a ≤ q) :
    l.foldr max 0 ≤ q := by
  induction l with
  | nil => simpa using h0
  | cons b l ih =>
    exact max_le (h b (by simp)) (ih fun a ha => h a (List.mem_cons_of_mem _ ha))

/-- On a non-empty list of non-negative values the maximum-load fold is
attained by some element. -/
theorem foldr_max_mem (l : List ℚ) (hne : l ≠ []) (h : ∀ a ∈ l, 0 ≤ a) :
    l.foldr max 0 ∈ l := by
  induction l with
  | nil => exact absurd rfl hne
  | cons b l ih =>
    cases l with
    | nil => simp [max_eq_left (h b (by simp))]
    | cons c t =>
      have hmem := ih (by simp) fun a ha => h a (List.mem_cons_of_mem _ ha)
      rcases max_choice b ((c :: t).foldr max 0) with hm | hm
      · rw [List.foldr_cons, hm]
        exact List.mem_cons_self _ _
      · rw [List.foldr_cons, hm]
        exact List.mem_cons_of_mem _ hmem

/-- Changing only the value of `W` does not change any wagon load. -/
theorem loadL_update (wb : Nat → ℚ) (B : List Nat) (v : Var → ℚ) (n : Nat) (q : ℚ) :
    loadL wb B (fun w => if w = Var.W then q else v w) n = loadL wb B v n := by
  simp [loadL]

/-- Under binary indicator values the decoded wagon load coincides with the
linear load of `constraint2`. -/
theorem wagonLoad_eq_loadL (wb : Nat → ℚ) (B : List Nat) (v : Var → ℚ) (n : Nat)
    (hbin : ∀ b ∈ B, v (Var.x b n) = 0 ∨ v (Var.x b n) = 1) :
    wagonLoad wb B v n = loadL wb B v n := by
  induction B with
  | nil => rfl
  | cons b B ih =>
    have ih2 := ih fun c hc => hbin c (List.mem_cons_of_mem _ hc)
    rcases hbin b (by simp) with h0 | h1
    · simpa [wagonLoad, loadL, List.filter_cons, h0] using ih2
    · simpa [wagonLoad, loadL, List.filter_cons, h1] using ih2

/-- Under binary indicator values `maxLoad` is the fold of the linear loads. -/
theorem maxLoad_eq_foldr_loadL (wb : Nat → ℚ) (B N : List Nat) (v : Var → ℚ)
    (hbin : ∀ b ∈ B, ∀ n ∈ N, v (Var.x b n) = 0 ∨ v (Var.x b n) = 1) :
    maxLoad wb B N v = (N.map (loadL wb B v)).foldr max 0 := by
  unfold maxLoad
  congr 1
  exact List.map_congr_left fun n hn =>
    wagonLoad_eq_loadL wb B v n fun b hb => hbin b hb n hn

/-- At any optimal solution of the built model, the value of `W` equals the
maximum of the wagon loads: optimality pushes `W` down onto the largest load
(or onto `0`, the lower bound of its domain, when every load is smaller). -/
theorem optimal_W_eq_fold (B N : List Nat) (wb : Nat → ℚ) (v : Var → ℚ)
    (h : IsOptimal (buildModel B N wb) v) :
    v Var.W = (N.map (loadL wb B v)).foldr max 0 := by
  obtain ⟨hfeas, hopt⟩ := h
  obtain ⟨hbin, hW, hsum, hload⟩ := (feasible_iff B N wb v).1 hfeas
  apply le_antisymm
  · have hfeas2 : Feasible (buildModel B N wb)
        (fun w => if w = Var.W then (N.map (loadL wb B v)).foldr max 0 else v w) := by
      apply (feasible_iff B N wb _).2
      refine ⟨?_, ?_, ?_, ?_⟩
      · intro b hb n hn
        simpa using hbin b hb n hn
      · simpa using foldr_max_nonneg _
      · intro b hb
        simpa using hsum b hb
      · intro n hn
        rw [loadL_update]
        simpa using le_foldr_max _ _ (List.mem_map_of_mem _ hn)
    have hle := hopt _ hfeas2
    rw [evalObj_buildModel, evalObj_buildModel] at hle
    simpa using hle
  · refine foldr_max_le _ _ hW ?_
    intro a ha
    obtain ⟨n, hn, rfl⟩ := List.mem_map.1 ha
    exact hload n hn

/-- For the one-box one-wagon instance with a non-negative weight, assigning
the box to the wagon with `W` equal to the box weight is optimal. -/
theorem oneBox_optimal (w : Nat → ℚ) (hw : 0 ≤ w 1) :
    IsOptimal (buildModel [1] [1] w) (nuOne (w 1)) := by
  constructor
  · apply (feasible_iff _ _ _ _).2
    refine ⟨?_, ?_, ?_, ?_⟩
    · intro b _ n _
      exact Or.inr rfl
    · exact hw
    · intro b _
      simp [nuOne]
    · intro n _
      simp [loadL, nuOne]
  · intro u hu
    obtain ⟨hbin, hW, hsum, hload⟩ := (feasible_iff _ _ _ _).1 hu
    have h1 := hsum 1 (by simp)
    simp at h1
    have h2 := hload 1 (by simp)
    simp [loadL] at h2
    rw [evalObj_buildModel, evalObj_buildModel]
    show w 1 ≤ u Var.W
    calc w 1 = w 1 * u (Var.x 1 1) := by rw [h1, mul_one]
    _ ≤ u Var.W := h2

/-- A finite sum of natural-number-valued rationals is natural-number valued. -/
theorem sum_natcast_of_mem :
    ∀ l : List ℚ, (∀ a ∈ l, ∃ k : ℕ, a = (k : ℚ)) → ∃ k : ℕ, l.sum = (k : ℚ) := by
  intro l
  induction l with
  | nil => exact fun _ => ⟨0, by simp⟩
  | cons a l ih =>
    intro h
    obtain ⟨k, hk⟩ := ih fun c hc => h c (List.mem_cons_of_mem _ hc)
    obtain ⟨m, hm⟩ := h a (List.mem_cons_self _ _)
    refine ⟨m + k, ?_⟩
    rw [List.sum_cons, hk, hm]
    push_cast
    ring

/-- With natural-number weights and binary indicators, every wagon load is a
natural number. -/
theorem loadL_natcast (wb : Nat → ℚ) (B : List Nat) (v : Var → ℚ) (n : Nat)
    (hw : ∀ b ∈ B, ∃ m : ℕ, wb b = (m : ℚ))
    (hbin : ∀ b ∈ B, v (Var.x b n) = 0 ∨ v (Var.x b n) = 1) :
    ∃ k : ℕ, loadL wb B v n = (k : ℚ) := by
  apply sum_natcast_of_mem
  intro a ha
  obtain ⟨b, hb, rfl⟩ := List.mem_map.1 ha
  obtain ⟨m, hm⟩ := hw b hb
  rcases hbin b hb with h0 | h1
  · exact ⟨0, by simp [h0]⟩
  · exact ⟨m, by simp [h1, hm]⟩

/-- The maximum-load fold of natural-number-valued rationals is a natural
number. -/
theorem foldr_max_natcast :
    ∀ l : List ℚ, (∀ a ∈ l, ∃ k : ℕ, a = (k : ℚ)) → ∃ k : ℕ, l.foldr max 0 = (k : ℚ) := by
  intro l
  induction l with
  | nil => exact fun _ => ⟨0, by simp⟩
  | cons a l ih =>
    intro h
    obtain ⟨k, hk⟩ := ih fun c hc => h c (List.mem_cons_of_mem _ hc)
    obtain ⟨m, hm⟩ := h a (List.mem_cons_self _ _)
    refine ⟨max m k, ?_⟩
    rw [List.foldr_cons, hk, hm, Nat.cast_max]

/-- A sum of binary values equal to zero forces every value to be zero. -/
theorem all_zero_of_sum_zero :
    ∀ (N : List Nat) (f : Nat → ℚ), (∀ n ∈ N, f n = 0 ∨ f n = 1) →
      (N.map f).sum = 0 → ∀ n ∈ N, f n = 0 := by
  intro N
  induction N with
  | nil => exact fun f _ _ n hn => absurd hn (List.not_mem_nil n)
  | cons a N ih =>
    intro f hbin hsum n hn
    have hrest : 0 ≤ (N.map f).sum := by
      apply List.sum_nonneg
      intro x hx
      obtain ⟨c, hc, rfl⟩ := List.mem_map.1 hx
      rcases hbin c (List.mem_cons_of_mem _ hc) with h | h <;> rw [h] <;> norm_num
    have ha : 0 ≤ f a := by
      rcases hbin a (List.mem_cons_self _ _) with h | h <;> rw [h] <;> norm_num
    rw [List.map_cons, List.sum_cons] at hsum
    have hfa : f a = 0 := by linarith
    have hsum0 : (N.map f).sum = 0 := by linarith
    rcases List.mem_cons.1 hn with rfl | hn2
    · exact hfa
    · exact ih f (fun c hc => hbin c (List.mem_cons_of_mem _ hc)) hsum0 n hn2

/-- A sum of binary values equal to one means exactly one value is non-zero:
the filter of non-zero positions has length one. -/
theorem count_nonzero_of_sum_one :
    ∀ (N : List Nat) (f : Nat → ℚ), (∀ n ∈ N, f n = 0 ∨ f n = 1) →
      (N.map f).sum = 1 → (N.filter fun n => decide (f n ≠ 0)).length = 1 := by
  intro N
  induction N with
  | nil => intro f _ hsum; simp at hsum
  | cons a N ih =>
    intro f hbin hsum
    rw [List.map_cons, List.sum_cons] at hsum
    rw [List.filter_cons]
    rcases hbin a (List.mem_cons_self _ _) with h0 | h1
    · have hrest : (N.map f).sum = 1 := by rw [h0] at hsum; linarith
      have hd : (decide (f a ≠ 0)) = false := by simp [h0]
      rw [hd]
      simp only [Bool.false_eq_true, if_false]
      exact ih f (fun c hc => hbin c (List.mem_cons_of_mem _ hc)) hrest
    · have hrest : (N.map f).sum = 0 := by rw [h1] at hsum; linarith
      have hall := all_zero_of_sum_zero N f
        (fun c hc => hbin c (List.mem_cons_of_mem _ hc)) hrest
      have hfilter : (N.filter fun n => decide (f n ≠ 0)) = [] := by
        rw [List.filter_eq_nil_iff]
        intro c hc
        simp [hall c hc]
      have hd : (decide (f a ≠ 0)) = true := by simp [h1]
      rw [hd, if_pos rfl, hfilter]
      rfl

/-- Filtering the paired-up decode output for a fixed box is the same as
filtering the box list itself. -/
theorem filter_fst_len (L : List Nat) (b n : Nat) :
    ((L.map fun c => (c, n)).filter fun p => decide (p.1 = b)).length
      = (L.filter fun c => decide (c = b)).length := by
  rw [List.filter_map, List.length_map]
  rfl

/-- In a duplicate-free box list containing `b`, the boxes surviving a filter
`q` contain `b` once if `q b` holds and zero times otherwise. -/
theorem filter_eq_len :
    ∀ (B : List Nat), B.Nodup → ∀ b ∈ B, ∀ q : Nat → Bool,
      ((B.filter q).filter fun c => decide (c = b)).length
        = if q b then 1 else 0 := by
  intro B
  induction B with
  | nil => intro _ b hb; cases hb
  | cons a B ih =>
    intro hnd b hb q
    have hna : a ∉ B := (List.nodup_cons.1 hnd).1
    have hnd2 : B.Nodup := (List.nodup_cons.1 hnd).2
    rcases List.mem_cons.1 hb with rfl | hmem
    · have hzero : (B.filter q).filter (fun c => decide (c = b)) = [] := by
        rw [List.filter_eq_nil_iff]
        intro c hc
        have hcB := List.mem_of_mem_filter hc
        simp only [decide_eq_true_eq]
        intro hcb
        exact hna (hcb ▸ hcB)
      rw [List.filter_cons]
      cases hq : q b with
      | true =>
        rw [if_pos rfl, List.filter_cons]
        simp [hzero]
      | false =>
        simp only [Bool.false_eq_true, if_false]
        simp [hzero]
    · have hba : ¬ (a = b) := fun h => hna (h ▸ hmem)
      rw [List.filter_cons]
      cases hq : q a with
      | true =>
        rw [if_pos rfl, List.filter_cons]
        have : (decide (a = b)) = false := by simp [hba]
        rw [this]
        simp only [Bool.false_eq_true, if_false]
        exact ih hnd2 b hmem q
      | false =>
        simp only [Bool.false_eq_true, if_false]
        exact ih hnd2 b hmem q

/-- The number of lines the decode loop prints for a given box equals the
number of wagons for which that box's indicator is non-zero. -/
theorem decode_count (B : List Nat) (v : Var → ℚ) (b : Nat)
    (hnd : B.Nodup) (hb : b ∈ B) :
    ∀ N : List Nat,
      ((notebookDecode B N v).filter fun p => decide (p.1 = b)).length
        = (N.filter fun n => decide (v (Var.x b n) ≠ 0)).length := by
  intro N
  induction N with
  | nil => rfl
  | cons n N ih =>
    simp only [notebookDecode, List.flatMap_cons, List.filter_append,
      List.length_append] at ih ⊢
    rw [filter_fst_len, filter_eq_len B hnd b hb, ih, List.filter_cons]
    cases hq : decide (v (Var.x b n) ≠ 0) with
    | true =>
      rw [if_pos rfl]
      simp [Nat.add_comm]
    | false =>
      simp only [Bool.false_eq_true, if_false]
      simp

/-- In every feasible solution of the notebook instance the three wagon loads
sum to the total box weight, 295. -/
theorem loads_sum_295 (v : Var → ℚ) (h : Feasible (buildModel B16 N3 wb16) v) :
    loadL wb16 B16 v 1 + loadL wb16 B16 v 2 + loadL wb16 B16 v 3 = 295 := by
  obtain ⟨-, -, hsum, -⟩ := (feasible_iff _ _ _ _).1 h
  have h1 := hsum 1 (by simp [B16])
  have h2 := hsum 2 (by simp [B16])
  have h3 := hsum 3 (by simp [B16])
  have h4 := hsum 4 (by simp [B16])
  have h5 := hsum 5 (by simp [B16])
  have h6 := hsum 6 (by simp [B16])
  have h7 := hsum 7 (by simp [B16])
  have h8 := hsum 8 (by simp [B16])
  have h9 := hsum 9 (by simp [B16])
  have h10 := hsum 10 (by simp [B16])
  have h11 := hsum 11 (by simp [B16])
  have h12 := hsum 12 (by simp [B16])
  have h13 := hsum 13 (by simp [B16])
  have h14 := hsum 14 (by simp [B16])
  have h15 := hsum 15 (by simp [B16])
  have h16 := hsum 16 (by simp [B16])
  simp only [N3, List.map_cons, List.map_nil, List.sum_cons, List.sum_nil]
    at h1 h2 h3 h4 h5 h6 h7 h8 h9 h10 h11 h12 h13 h14 h15 h16
  norm_num [loadL, B16, wb16]
  linarith

/-- Lower bound: every feasible solution of the notebook instance has
`W ≥ 99` (the loads are natural numbers summing to 295 over 3 wagons). -/
theorem lb99 (v : Var → ℚ) (h : Feasible (buildModel B16 N3 wb16) v) :
    99 ≤ v Var.W := by
  obtain ⟨hbin, hW, hsum, hload⟩ := (feasible_iff _ _ _ _).1 h
  have hw : ∀ b ∈ B16, ∃ m : ℕ, wb16 b = (m : ℚ) := by
    intro b hb
    simp only [B16, List.mem_cons, List.not_mem_nil, or_false] at hb
    rcases hb with rfl | rfl | rfl | rfl | rfl | rfl | rfl | rfl | rfl | rfl | rfl | rfl | rfl | rfl | rfl | rfl
    exacts [⟨34, by norm_num [wb16]⟩, ⟨6, by norm_num [wb16]⟩, ⟨8, by norm_num [wb16]⟩,
      ⟨17, by norm_num [wb16]⟩, ⟨16, by norm_num [wb16]⟩, ⟨5, by norm_num [wb16]⟩,
      ⟨13, by norm_num [wb16]⟩, ⟨21, by norm_num [wb16]⟩, ⟨25, by norm_num [wb16]⟩,
      ⟨31, by norm_num [wb16]⟩, ⟨14, by norm_num [wb16]⟩, ⟨13, by norm_num [wb16]⟩,
      ⟨33, by norm_num [wb16]⟩, ⟨9, by norm_num [wb16]⟩, ⟨25, by norm_num [wb16]⟩,
      ⟨25, by norm_num [wb16]⟩]
  obtain ⟨k1, hk1⟩ := loadL_natcast wb16 B16 v 1 hw fun b hb => hbin b hb 1 (by simp [N3])
  obtain ⟨k2, hk2⟩ := loadL_natcast wb16 B16 v 2 hw fun b hb => hbin b hb 2 (by simp [N3])
  obtain ⟨k3, hk3⟩ := loadL_natcast wb16 B16 v 3 hw fun b hb => hbin b hb 3 (by simp [N3])
  have hs := loads_sum_295 v h
  rw [hk1, hk2, hk3] at hs
  have hsN : k1 + k2 + k3 = 295 := by exact_mod_cast hs
  have hl1 : (k1 : ℚ) ≤ v Var.W := hk1 ▸ hload 1 (by simp [N3])
  have hl2 : (k2 : ℚ) ≤ v Var.W := hk2 ▸ hload 2 (by simp [N3])
  have hl3 : (k3 : ℚ) ≤ v Var.W := hk3 ▸ hload 3 (by simp [N3])
  by_contra hlt
  push_neg at hlt
  have e1 : k1 < 99 := by exact_mod_cast lt_of_le_of_lt hl1 hlt
  have e2 : k2 < 99 := by exact_mod_cast lt_of_le_of_lt hl2 hlt
  have e3 : k3 < 99 := by exact_mod_cast lt_of_le_of_lt hl3 hlt
  omega

/-- The notebook's printed solution with `W = 99` is optimal. -/
theorem nuStar_optimal : IsOptimal (buildModel B16 N3 wb16) nuStar := by
  refine ⟨nuStar_feasible, ?_⟩
  intro u hu
  rw [evalObj_buildModel, evalObj_buildModel]
  exact lb99 u hu

/-- The domain conditions of the built model say exactly: every indicator is
binary and `W` is non-negative. -/
theorem domain_iff (B N : List Nat) (wb : Nat → ℚ) (v : Var → ℚ) :
    (∀ vd ∈ (buildModel B N wb).vars, inDomain v vd)
      ↔ ((∀ b ∈ B, ∀ n ∈ N, v (Var.x b n) = 0 ∨ v (Var.x b n) = 1) ∧ 0 ≤ v Var.W) := by
  constructor
  · intro hdom
    refine ⟨?_, ?_⟩
    · intro b hb n hn
      exact hdom (Var.x b n, Domain.Binary)
        (List.mem_append_left _ (List.mem_flatMap.2 ⟨b, hb, List.mem_map_of_mem _ hn⟩))
    · exact hdom (Var.W, Domain.NonNegativeReals) (List.mem_append_right _ (by simp))
  · rintro ⟨hbin, hW⟩ vd hvd
    rcases List.mem_append.1 hvd with h | h
    · obtain ⟨b, hb, h2⟩ := List.mem_flatMap.1 h
      obtain ⟨n, hn, rfl⟩ := List.mem_map.1 h2
      exact hbin b hb n hn
    · simp only [List.mem_singleton] at h
      subst h
      exact hW

/-- The first constraint list of the built model says exactly: for every box
the indicators over the wagons sum to one. -/
theorem constraint1_iff (B N : List Nat) (wb : Nat → ℚ) (v : Var → ℚ) :
    (∀ c ∈ (buildModel B N wb).constraint1, satisfies v c)
      ↔ ∀ b ∈ B, (N.map fun n => v (Var.x b n)).sum = 1 := by
  constructor
  · intro h b hb
    have h2 := h _ (List.mem_map_of_mem _ hb)
    simpa [satisfies, evalLin, List.map_map, Function.comp_def] using h2
  · intro h c hc
    obtain ⟨b, hb, rfl⟩ := List.mem_map.1 hc
    simp only [satisfies, evalLin, List.map_map, Function.comp_def]
    simpa using h b hb

/-- The second constraint list of the built model says exactly: every wagon's
load is at most `W`. -/
theorem constraint2_iff (B N : List Nat) (wb : Nat → ℚ) (v : Var → ℚ) :
    (∀ c ∈ (buildModel B N wb).constraint2, satisfies v c)
      ↔ ∀ n ∈ N, loadL wb B v n ≤ v Var.W := by
  constructor
  · intro h n hn
    have h2 := h _ (List.mem_map_of_mem _ hn)
    simpa [satisfies, evalLin, loadL, List.map_map, Function.comp_def] using h2
  · intro h c hc
    obtain ⟨n, hn, rfl⟩ := List.mem_map.1 hc
    simp only [satisfies, evalLin, List.map_map, Function.comp_def]
    simpa [loadL] using h n hn

/-- C1: the model built from a problem instance exposes exactly one binary
variable per (box, wagon) pair plus the single continuous non-negative scalar
`W`; its objective is to minimize `W`; it has one equality constraint per box
(indicators sum to 1) and one inequality constraint per wagon (load at most
`W`) — and no other constraints: satisfying its two constraint lists is
equivalent to exactly those families, and its variable declarations are
equivalent to exactly the binary/non-negativity conditions. -/
theorem claim_C1 (B N : List Nat) (wb : Nat → ℚ) (v : Var → ℚ) :
    (buildModel B N wb).vars
        = (B.flatMap fun b => N.map fun n => (Var.x b n, Domain.Binary))
          ++ [(Var.W, Domain.NonNegativeReals)]
      ∧ (buildModel B N wb).sense = Sense.minimize
      ∧ evalObj (buildModel B N wb) v = v Var.W
      ∧ (buildModel B N wb).constraint1.length = B.length
      ∧ (buildModel B N wb).constraint2.length = N.length
      ∧ ((∀ c ∈ (buildModel B N wb).constraint1, satisfies v c)
          ↔ ∀ b ∈ B, (N.map fun n => v (Var.x b n)).sum = 1)
      ∧ ((∀ c ∈ (buildModel B N wb).constraint2, satisfies v c)
          ↔ ∀ n ∈ N, loadL wb B v n ≤ v Var.W)
      ∧ ((∀ vd ∈ (buildModel B N wb).vars, inDomain v vd)
          ↔ ((∀ b ∈ B, ∀ n ∈ N, v (Var.x b n) = 0 ∨ v (Var.x b n) = 1)
              ∧ 0 ≤ v Var.W)) :=
  ⟨rfl, rfl, evalObj_buildModel B N wb v, by simp [buildModel], by simp [buildModel],
    constraint1_iff B N wb v, constraint2_iff B N wb v, domain_iff B N wb v⟩

/-- C2: when the solver terminates optimally, the reported objective value
(the optimal `W`) equals the maximum decoded wagon load, and the load bound
is tight at some wagon. -/
theorem claim_C2 (B N : List Nat) (wb : Nat → ℚ) (v : Var → ℚ)
    (hopt : IsOptimal (buildModel B N wb) v)
    (hw : ∀ b ∈ B, 0 ≤ wb b) (hN : N ≠ []) :
    v Var.W = maxLoad wb B N v ∧ ∃ n ∈ N, wagonLoad wb B v n = v Var.W := by
  obtain ⟨hfeas, hmin⟩ := hopt
  obtain ⟨hbin, hW, hsum, hload⟩ := (feasible_iff _ _ _ _).1 hfeas
  have hbridge := maxLoad_eq_foldr_loadL wb B N v hbin
  have hWeq := optimal_W_eq_fold B N wb v ⟨hfeas, hmin⟩
  have hmain : v Var.W = maxLoad wb B N v := by rw [hbridge]; exact hWeq
  refine ⟨hmain, ?_⟩
  have hnonneg : ∀ a ∈ N.map (wagonLoad wb B v), 0 ≤ a := by
    intro a ha
    obtain ⟨n, hn, rfl⟩ := List.mem_map.1 ha
    apply List.sum_nonneg
    intro q hq
    obtain ⟨b, hb, rfl⟩ := List.mem_map.1 hq
    exact hw b (List.mem_of_mem_filter hb)
  have hne : N.map (wagonLoad wb B v) ≠ [] := by simpa using hN
  have hmem := foldr_max_mem _ hne hnonneg
  obtain ⟨n, hn, heq⟩ := List.mem_map.1 hmem
  exact ⟨n, hn, by rw [heq]; exact hmain.symm⟩

/-- C2 witness: the one-box one-wagon instance with weight 1 at its optimal
solution. -/
theorem claim_C2_witness :
    nuOne (wOne 1) Var.W = maxLoad wOne [1] [1] (nuOne (wOne 1))
      ∧ ∃ n ∈ [1], wagonLoad wOne [1] (nuOne (wOne 1)) n = nuOne (wOne 1) Var.W :=
  claim_C2 [1] [1] wOne (nuOne (wOne 1)) (oneBox_optimal wOne (by norm_num [wOne]))
    (fun b _ => by norm_num [wOne]) (by simp)

/-- C3: in every feasible solution of the built model each box's indicators
sum to one over the wagons, and the decode loop prints exactly one wagon for
each box. -/
theorem claim_C3 (B N : List Nat) (wb : Nat → ℚ) (v : Var → ℚ)
    (hfeas : Feasible (buildModel B N wb) v) (hnd : B.Nodup) (b : Nat) (hb : b ∈ B) :
    (N.map fun n => v (Var.x b n)).sum = 1
      ∧ ((notebookDecode B N v).filter fun p => decide (p.1 = b)).length = 1 := by
  obtain ⟨hbin, -, hsum, -⟩ := (feasible_iff _ _ _ _).1 hfeas
  refine ⟨hsum b hb, ?_⟩
  rw [decode_count B v b hnd hb N]
  exact count_nonzero_of_sum_one N (fun n => v (Var.x b n))
    (fun n hn => hbin b hb n hn) (hsum b hb)

/-- C3 witness: box 1 of the notebook instance at the printed solution. -/
theorem claim_C3_witness :
    (N3.map fun n => nuStar (Var.x 1 n)).sum = 1
      ∧ ((notebookDecode B16 N3 nuStar).filter fun p => decide (p.1 = 1)).length = 1 :=
  claim_C3 B16 N3 wb16 nuStar nuStar_feasible (by decide) 1 (by decide)

/-- C4 counterexample: the claim says model building fails with a
configuration error on a negative weight, but the construction cell has no
validation: building with a negative box weight succeeds. -/
theorem claim_C4_counterexample :
    negWeight 1 < 0
      ∧ buildModelE [1] [2] negWeight = Except.ok (buildModel [1] [2] negWeight)
      ∧ buildModelE [] [] negWeight = Except.ok (buildModel [] [] negWeight) :=
  ⟨by norm_num [negWeight], rfl, rfl⟩

/-- C4 (amended): model building never fails: the construction cell performs
no validation of weights, emptiness or identifier collisions and always
returns the fully built model. -/
theorem claim_C4_amended (B N : List Nat) (wb : Nat → ℚ) :
    ∃ m : Model, buildModelE B N wb = Except.ok m
      ∧ m.constraint1.length = B.length
      ∧ m.constraint2.length = N.length := by
  refine ⟨buildModel B N wb, rfl, ?_, ?_⟩ <;> simp [buildModel]

/-- C5 counterexample: the post-solve cells read variable values without any
status check: two records with non-optimal status differing only in variable
values produce different reports. -/
theorem claim_C5_counterexample :
    recA.termination ≠ TermStatus.optimal
      ∧ recB.termination ≠ TermStatus.optimal
      ∧ notebookReport [1] [1] wOne recA ≠ notebookReport [1] [1] wOne recB := by
  refine ⟨by decide, by decide, ?_⟩
  intro h
  have h2 := congrArg Prod.fst h
  simp [notebookReport, notebookDecode, recA, recB, valAllOne, valAllZero] at h2

/-- C5 (amended): the notebook's post-solve code never inspects the
termination status: its report is the same function of the variable values
whatever the status is. -/
theorem claim_C5_amended (B N : List Nat) (wb : Nat → ℚ) (s t : TermStatus)
    (w : Var → ℚ) :
    notebookReport B N wb ⟨s, w⟩ = notebookReport B N wb ⟨t, w⟩ := rfl

/-- C6 counterexample: on a record in which box 1 has two non-zero indicators
the decode loop silently prints the box twice, and on an all-zero record it
silently prints no line for box 1; no error is raised in either case. -/
theorem claim_C6_counterexample :
    notebookDecode [1] [1, 2] valAllOne = [(1, 1), (1, 2)]
      ∧ notebookDecode [1] [1, 2] valAllZero = [] := by
  constructor
  · norm_num [notebookDecode, valAllOne]
  · norm_num [notebookDecode, valAllZero]

/-- C6 (amended): decoding never fails; for each box the number of printed
lines equals the number of wagons whose indicator for that box is non-zero,
so a box with no non-zero indicator is silently omitted and a box with
several non-zero indicators is silently printed once per such wagon. -/
theorem claim_C6_amended (B N : List Nat) (v : Var → ℚ) (b : Nat)
    (hnd : B.Nodup) (hb : b ∈ B) :
    ((notebookDecode B N v).filter fun p => decide (p.1 = b)).length
      = (N.filter fun n => decide (v (Var.x b n) ≠ 0)).length :=
  decode_count B v b hnd hb N

/-- C6 witness: the inconsistent all-ones record over one box and two wagons,
where the box is printed twice. -/
theorem claim_C6_witness :
    ((notebookDecode [1] [1, 2] valAllOne).filter fun p => decide (p.1 = 1)).length
      = ([1, 2].filter fun n => decide (valAllOne (Var.x 1 n) ≠ 0)).length :=
  claim_C6_amended [1] [1, 2] valAllOne 1 (by decide) (by decide)

/-- C7: increasing one box's weight while holding everything else fixed never
decreases the optimal bottleneck value. -/
theorem claim_C7 (B N : List Nat) (wb wb2 : Nat → ℚ) (b0 : Nat) (v v2 : Var → ℚ)
    (hinc : wb b0 ≤ wb2 b0) (hoth : ∀ b, b ≠ b0 → wb2 b = wb b)
    (hopt : IsOptimal (buildModel B N wb) v)
    (hopt2 : IsOptimal (buildModel B N wb2) v2) :
    v Var.W ≤ v2 Var.W := by
  have hle : ∀ b, wb b ≤ wb2 b := by
    intro b
    by_cases hb : b = b0
    · subst hb; exact hinc
    · rw [hoth b hb]
  obtain ⟨hfeas2, -⟩ := hopt2
  obtain ⟨hbin, hW, hsum, hload⟩ := (feasible_iff _ _ _ _).1 hfeas2
  have hfeas2w : Feasible (buildModel B N wb) v2 := by
    apply (feasible_iff _ _ _ _).2
    refine ⟨hbin, hW, hsum, ?_⟩
    intro n hn
    refine le_trans ?_ (hload n hn)
    unfold loadL
    apply List.sum_le_sum
    intro b hb
    apply mul_le_mul_of_nonneg_right (hle b)
    rcases hbin b hb n hn with h0 | h1
    · exact le_of_eq h0.symm
    · rw [h1]; norm_num
  have hcmp := hopt.2 v2 hfeas2w
  rwa [evalObj_buildModel, evalObj_buildModel] at hcmp

/-- C7 witness: raising the single box's weight from 1 to 2 raises the
optimal bottleneck value from 1 to 2. -/
theorem claim_C7_witness :
    nuOne (wOne 1) Var.W ≤ nuOne (wTwo 1) Var.W :=
  claim_C7 [1] [1] wOne wTwo 1 (nuOne (wOne 1)) (nuOne (wTwo 1))
    (by norm_num [wOne, wTwo])
    (fun b hb => by norm_num [wOne, wTwo, hb])
    (oneBox_optimal wOne (by norm_num [wOne]))
    (oneBox_optimal wTwo (by norm_num [wTwo]))

/-- C8 counterexample: the notebook instance's optimal solution has wagon
loads summing to 295 — which is also the total box weight — not 299 as the
claim states. -/
theorem claim_C8_counterexample :
    IsOptimal (buildModel B16 N3 wb16) nuStar
      ∧ (N3.map (wagonLoad wb16 B16 nuStar)).sum = 295
      ∧ (B16.map wb16).sum = 295
      ∧ (295 : ℚ) ≠ 299 := by
  refine ⟨nuStar_optimal, ?_, ?_, by norm_num⟩
  · norm_num [N3, wagonLoad, B16, wb16, nuStar, assignStar]
  · norm_num [B16, wb16]

/-- C8 (amended): for the notebook instance (weights 34, 6, 8, 17, 16, 5, 13,
21, 25, 31, 14, 13, 33, 9, 25, 25 and three wagons) the optimal bottleneck
value is 99, every wagon load at an optimum is at most 99, and the three
loads sum to 295 — the total weight — not 299. -/
theorem claim_C8_amended (v : Var → ℚ) (h : IsOptimal (buildModel B16 N3 wb16) v) :
    v Var.W = 99
      ∧ (∀ n ∈ N3, wagonLoad wb16 B16 v n ≤ 99)
      ∧ wagonLoad wb16 B16 v 1 + wagonLoad wb16 B16 v 2 + wagonLoad wb16 B16 v 3
          = 295 := by
  obtain ⟨hfeas, hmin⟩ := h
  obtain ⟨hbin, hW, hsum, hload⟩ := (feasible_iff _ _ _ _).1 hfeas
  have h99 : v Var.W = 99 := by
    apply le_antisymm
    · have hcmp := hmin nuStar nuStar_feasible
      rwa [evalObj_buildModel, evalObj_buildModel] at hcmp
    · exact lb99 v hfeas
  have hbridge : ∀ n ∈ N3, wagonLoad wb16 B16 v n = loadL wb16 B16 v n := fun n hn =>
    wagonLoad_eq_loadL wb16 B16 v n fun b hb => hbin b hb n hn
  refine ⟨h99, ?_, ?_⟩
  · intro n hn
    rw [hbridge n hn, ← h99]
    exact hload n hn
  · rw [hbridge 1 (by simp [N3]), hbridge 2 (by simp [N3]), hbridge 3 (by simp [N3])]
    exact loads_sum_295 v hfeas

/-- C8 witness: the notebook's printed optimal solution. -/
theorem claim_C8_witness :
    nuStar Var.W = 99
      ∧ (∀ n ∈ N3, wagonLoad wb16 B16 nuStar n ≤ 99)
      ∧ wagonLoad wb16 B16 nuStar 1 + wagonLoad wb16 B16 nuStar 2
          + wagonLoad wb16 B16 nuStar 3 = 295 :=
  claim_C8_amended nuStar nuStar_optimal

/-- C9: the Capacity column is never referenced in the built model: two wagon
tables with the same identifiers but arbitrary capacities produce identical
models, hence identical feasible sets and identical optimal solutions. -/
theorem claim_C9 (wb : Nat → ℚ) (B : List Nat) (w1 w2 : List WagonRow)
    (hids : w1.map WagonRow.wagon = w2.map WagonRow.wagon) :
    buildFromTables wb B w1 = buildFromTables wb B w2
      ∧ (∀ v, Feasible (buildFromTables wb B w1) v
          ↔ Feasible (buildFromTables wb B w2) v)
      ∧ (∀ v, IsOptimal (buildFromTables wb B w1) v
          ↔ IsOptimal (buildFromTables wb B w2) v) := by
  have hm : buildFromTables wb B w1 = buildFromTables wb B w2 := by
    unfold buildFromTables
    rw [hids]
  exact ⟨hm, fun v => by rw [hm], fun v => by rw [hm]⟩

/-- C9 witness: the notebook's capacity-100 wagon table against a table with
capacities 7, 350, 0 on the same identifiers. -/
theorem claim_C9_witness :
    buildFromTables wb16 B16 wagonsData = buildFromTables wb16 B16 wagonsAlt
      ∧ wagonsData ≠ wagonsAlt :=
  ⟨(claim_C9 wb16 B16 wagonsData wagonsAlt rfl).1, by decide⟩

/-- C10: although `W` is declared continuous, with natural-number box weights
its optimal value is a natural number. -/
theorem claim_C10 (B N : List Nat) (wb : Nat → ℚ) (v : Var → ℚ)
    (hw : ∀ b ∈ B, ∃ m : ℕ, wb b = (m : ℚ))
    (h : IsOptimal (buildModel B N wb) v) :
    ∃ k : ℕ, v Var.W = (k : ℚ) := by
  obtain ⟨hbin, -, -, -⟩ := (feasible_iff _ _ _ _).1 h.1
  rw [optimal_W_eq_fold B N wb v h]
  apply foldr_max_natcast
  intro a ha
  obtain ⟨n, hn, rfl⟩ := List.mem_map.1 ha
  exact loadL_natcast wb B v n hw fun b hb => hbin b hb n hn

/-- C10 witness: the one-box one-wagon instance with weight 1. -/
theorem claim_C10_witness : ∃ k : ℕ, nuOne (wOne 1) Var.W = (k : ℚ) :=
  claim_C10 [1] [1] wOne (nuOne (wOne 1))
    (fun b _ => ⟨1, by norm_num [wOne]⟩)
    (oneBox_optimal wOne (by norm_num [wOne]))
